import Mathlib

/- Shallow embedding of the paysage repository's core (src/paysage/models/hidden.py:
   the abstract LatentModel machinery and the RestrictedBoltzmannMachine), together
   with the backend primitives it consumes (src/paysage/backends, whose concrete
   engine modules are external to this repository and are modelled from the spec's
   interface contract where needed).

   Modelling conventions:
   - numpy float32 arrays are modelled as exact rational vectors (List ℚ) and
     matrices (List (List ℚ)); `astype` to the array's own dtype is the identity
     on values.  Dtypes themselves are tracked as tags on the model's parameters.
   - the process-wide random source is threaded explicitly: stochastic layer
     primitives have type V → R → V × R for an abstract generator state R, and
     `numpy.random.choice` is modelled by the index sequence it returns.
   - Python `None` (the `pass` placeholder body of LatentModel.marginal_energy)
     is modelled by `Option.none`; an operation applied to `None` propagates
     `none` (the uncontrolled TypeError of the reference implementation).
   - the per-unit layer primitives (`mean`, `log_partition_function`) and the
     exponential used by `importance_weights` live in external modules; they are
     modelled from the spec: `mean`/`log_partition_function` as abstract
     elementwise functions, `importance_weights` as exp(-E/T) normalized to
     sum to one (over ℝ, with Real.exp). -/

-- ==== rational linear algebra primitives (numpy.dot and friends) ====

/-- numpy.dot of two 1-D arrays. -/
def dotQ (a b : List ℚ) : ℚ := (List.zipWith (fun x y => x * y) a b).sum

/-- Elementwise sum of two vectors (numpy broadcasting-free `+`). -/
def addVec (a b : List ℚ) : List ℚ := List.zipWith (fun x y => x + y) a b

/-- Scalar multiple of a vector. -/
def scale (c : ℚ) (a : List ℚ) : List ℚ := a.map (fun x => c * x)

/-- Elementwise negation of a vector. -/
def negVec (a : List ℚ) : List ℚ := a.map (fun x => -x)

/-- Elementwise negation of a matrix (list of rows). -/
def negM (M : List (List ℚ)) : List (List ℚ) := M.map negVec

/-- Single-sample outer product `en.outer(a, b)` of the backend: the matrix
    with entries a_i * b_j. -/
def outer (a b : List ℚ) : List (List ℚ) := a.map (fun x => b.map (fun y => x * y))

/-- Elementwise sum of two matrices. -/
def addMat (A B : List (List ℚ)) : List (List ℚ) := List.zipWith addVec A B

/-- The zero matrix with n1 rows and n2 columns. -/
def zeroM (n1 n2 : ℕ) : List (List ℚ) := List.replicate n1 (List.replicate n2 (0 : ℚ))

/-- Sum of a list of vectors, each of length n (numpy.sum along axis 0). -/
def sumVecs (n : ℕ) : List (List ℚ) → List ℚ
  | [] => List.replicate n (0 : ℚ)
  | r :: rest => addVec r (sumVecs n rest)

/-- Sum of a list of n1 × n2 matrices. -/
def sumMats (n1 n2 : ℕ) : List (List (List ℚ)) → List (List ℚ)
  | [] => zeroM n1 n2
  | M :: rest => addMat M (sumMats n1 n2 rest)

/-- Scalar multiple of a matrix. -/
def scaleM (c : ℚ) (M : List (List ℚ)) : List (List ℚ) := M.map (fun row => scale c row)

/-- numpy.mean of a 1-D array: sum divided by length. -/
def meanQ (l : List ℚ) : ℚ := l.sum / l.length

/-- numpy.mean(rows, axis=0): columnwise mean of a batch of length-n vectors. -/
def colMean (n : ℕ) (rows : List (List ℚ)) : List ℚ :=
  (sumVecs n rows).map (fun x => x / (rows.length : ℚ))

/-- Entry i of a vector, 0 out of range (total indexing used to state
    pointwise facts). -/
def idx1 (a : List ℚ) (i : ℕ) : ℚ := a.getD i 0

/-- Entry (i, j) of a matrix, 0 out of range. -/
def idx2 (M : List (List ℚ)) (i j : ℕ) : ℚ := (M.getD i []).getD j 0

/-- numpy.dot(v, W) for a 1-D v against the rows of W: the length-n vector
    with entries Σ_i v_i * W_i_j, built as the v-weighted sum of the rows. -/
def vecMat (n : ℕ) : List ℚ → List (List ℚ) → List ℚ
  | [], _ => List.replicate n (0 : ℚ)
  | _ :: _, [] => List.replicate n (0 : ℚ)
  | x :: xs, row :: rows => addVec (scale x row) (vecMat n xs rows)

/-- numpy.dot(W, h) for a matrix against a 1-D h: one dot product per row. -/
def matVecW (W : List (List ℚ)) (h : List ℚ) : List ℚ := W.map (fun row => dotQ row h)

/-- Modelled from the spec: the backend bilinear form Σ_ij A_i W_ij B_j used by
    `en.batch_dot` for one sample (the backend numba engine is external to the
    repository). -/
def bilinear (a : List ℚ) (W : List (List ℚ)) (b : List ℚ) : ℚ :=
  ((List.zip a W).map (fun p => ((List.zip p.2 b).map (fun q => p.1 * q.1 * q.2)).sum)).sum

/-- Modelled from the spec: `en.batch_dot(A, W, B)` — the per-sample bilinear
    form, one scalar per batch member. -/
def batch_dot (A : List (List ℚ)) (W : List (List ℚ)) (B : List (List ℚ)) : List ℚ :=
  (List.zip A B).map (fun p => bilinear p.1 W p.2)

/-- Modelled from the spec: `en.batch_outer(A, B)` — the per-sample outer
    product averaged across the batch, a matrix the shape of `weights`. -/
def batch_outer (n1 n2 : ℕ) (A B : List (List ℚ)) : List (List ℚ) :=
  scaleM (1 / (A.length : ℚ)) (sumMats n1 n2 ((List.zip A B).map (fun p => outer p.1 p.2)))

-- ==== the RestrictedBoltzmannMachine data model ====

/-- Numeric precision tag of a stored parameter array. -/
inductive DType where
  | float32
  | float64
deriving DecidableEq

/-- State of a RestrictedBoltzmannMachine instance: the (nvis, nhid) declared at
    construction, the three parameter arrays of the params dict with their dtype
    tags, and the constraint / penalty registries of LatentModel.__init__.
    Constraint and penalty values are stored by name, as the Python code stores
    the functions looked up by name. -/
structure RBM where
  nvis : ℕ
  nhid : ℕ
  weights : List (List ℚ)
  visible_bias : List ℚ
  hidden_bias : List ℚ
  wdtype : DType
  vbdtype : DType
  hbdtype : DType
  constraints : List (String × String)
  penalty : List (String × (String × ℚ))
deriving DecidableEq

/-- Keys of the params dict set up by RestrictedBoltzmannMachine.__init__. -/
def paramKeys (_ : RBM) : List String := ["weights", "visible_bias", "hidden_bias"]

/-- RestrictedBoltzmannMachine.__init__: validates the layer-type tags, draws
    `weights` from the normal sampler (shape (nvis, nhid), astype float32) and
    zero-initializes both biases as float32.  `normalDraw i j` stands for the
    (i, j) entry returned by numpy.random.normal. -/
def mkRBM (nvis nhid : ℕ) (vis_type hid_type : String) (normalDraw : ℕ → ℕ → ℚ) : Option RBM :=
  if vis_type ∈ [("ising" : String), "bernoulli"] ∧ hid_type ∈ [("ising" : String), "bernoulli"] then
    some { nvis := nvis
           nhid := nhid
           weights := (List.range nvis).map (fun i => (List.range nhid).map (fun j => normalDraw i j))
           visible_bias := List.replicate nvis (0 : ℚ)
           hidden_bias := List.replicate nhid (0 : ℚ)
           wdtype := DType.float32
           vbdtype := DType.float32
           hbdtype := DType.float32
           constraints := []
           penalty := [] }
  else none

/-- hidden_field(visible) = hidden_bias + numpy.dot(visible, weights). -/
def hidden_field (m : RBM) (v : List ℚ) : List ℚ :=
  addVec m.hidden_bias (vecMat m.nhid v m.weights)

/-- visible_field(hidden) = visible_bias + numpy.dot(hidden, weights.T). -/
def visible_field (m : RBM) (h : List ℚ) : List ℚ :=
  addVec m.visible_bias (matVecW m.weights h)

/-- hidden_mean(visible) for a single sample: the hidden layer's `mean`
    primitive (an external elementwise function μ) applied to the hidden field. -/
def hidden_mean1 (m : RBM) (μ : ℚ → ℚ) (v : List ℚ) : List ℚ :=
  (hidden_field m v).map μ

/-- hidden_mean(visible) for a batch: rowwise application of hidden_mean1. -/
def hidden_meanB (m : RBM) (μ : ℚ → ℚ) (V : List (List ℚ)) : List (List ℚ) :=
  V.map (fun v => hidden_mean1 m μ v)

/-- joint_energy(visible, hidden) on 1-D (single-sample) inputs:
    -v·visible_bias - h·hidden_bias - v·(weights·h); numpy.mean of the scalar
    is the scalar itself. -/
def joint_energy_single (m : RBM) (v h : List ℚ) : ℚ :=
  -dotQ v m.visible_bias - dotQ h m.hidden_bias - dotQ v (matVecW m.weights h)

/-- joint_energy(visible, hidden) on 2-D (batch) inputs: per-sample bias terms
    minus the per-sample `en.batch_dot` bilinear term, then numpy.mean over the
    batch. -/
def joint_energy_batch (m : RBM) (V H : List (List ℚ)) : ℚ :=
  meanQ (List.zipWith (fun e c => e - c)
    (List.zipWith (fun v h => -dotQ v m.visible_bias - dotQ h m.hidden_bias) V H)
    (batch_dot V m.weights H))

/-- marginal_free_energy(visible) for a single sample:
    -v·visible_bias - Σ_j log_partition_function(hidden_field(v))_j, with the
    hidden layer's per-unit log-partition primitive as an abstract elementwise
    function logZ. -/
def marginal_free_energy (m : RBM) (logZ : ℚ → ℚ) (v : List ℚ) : ℚ :=
  -dotQ v m.visible_bias - ((hidden_field m v).map logZ).sum

/-- LatentModel.marginal_energy as dispatched on a RestrictedBoltzmannMachine:
    the abstract class's body is `pass` (returns Python None, modelled `none`)
    and RestrictedBoltzmannMachine never overrides this name — it defines its
    energy under the different name marginal_free_energy — so the inherited
    placeholder is what `self.marginal_energy` resolves to. -/
def RBM.marginal_energy (_ : RBM) (_ : List (List ℚ)) : Option (List ℝ) := none

/-- Result dict of RestrictedBoltzmannMachine.derivatives: exactly the three
    keys weights, visible_bias, hidden_bias. -/
structure Derivs where
  weights : List (List ℚ)
  visible_bias : List ℚ
  hidden_bias : List ℚ
deriving DecidableEq

/-- derivatives(visible) on a 2-D batch: negated columnwise means of the
    visible batch and of mean_hidden, and the negated `en.batch_outer`. -/
def derivatives_batch (m : RBM) (μ : ℚ → ℚ) (V : List (List ℚ)) : Derivs :=
  { weights := negM (batch_outer m.nvis m.nhid V (hidden_meanB m μ V))
    visible_bias := negVec (colMean m.nvis V)
    hidden_bias := negVec (colMean m.nhid (hidden_meanB m μ V)) }

/-- derivatives(visible) on a 1-D single sample: the same negated quantities
    without batch averaging, with `en.outer` for the weight gradient. -/
def derivatives_single (m : RBM) (μ : ℚ → ℚ) (v : List ℚ) : Derivs :=
  { weights := negM (outer v (hidden_mean1 m μ v))
    visible_bias := negVec v
    hidden_bias := negVec (hidden_mean1 m μ v) }

-- ==== constraint / penalty bookkeeping (LatentModel) ====

/-- Python dict assignment `d[k] = v` on an association list: overwrite the
    existing binding or append a new one. -/
def setKey (l : List (String × String)) (k v : String) : List (String × String) :=
  if l.any (fun p => p.1 == k) then l.map (fun p => if p.1 == k then (k, v) else p)
  else l ++ [(k, v)]

/-- LatentModel.add_constraints: iterates over the input map in order; for each
    key it asserts membership in params and then registers the constraint.  The
    Bool records whether the loop ran to completion (true) or an assertion
    failed (false); on failure the registrations already performed remain, as
    the Python object keeps the mutations made before the raised AssertionError. -/
def add_constraints (m : RBM) (cons : List (String × String)) : RBM × Bool :=
  match cons with
  | [] => (m, true)
  | (k, c) :: rest =>
    if k ∈ paramKeys m then
      add_constraints { m with constraints := setKey m.constraints k c } rest
    else (m, false)

/-- Folding a list of (key, constraint) registrations over a constraints dict;
    used to state which registrations add_constraints has performed. -/
def registerAll (cs : List (String × String)) (start : List (String × String)) :
    List (String × String) :=
  cs.foldl (fun acc p => setKey acc p.1 p.2) start

/-- True when the input map contains a key that is not a parameter name. -/
def hasInvalidKey (m : RBM) (cons : List (String × String)) : Prop :=
  ∃ p ∈ cons, p.1 ∉ paramKeys m

instance (m : RBM) (cons : List (String × String)) : Decidable (hasInvalidKey m cons) := by
  unfold hasInvalidKey
  infer_instance

/-- LatentModel.add_weight_decay: replaces the penalty dict with a single
    'weights' entry holding the named penalty at the given strength. -/
def add_weight_decay (m : RBM) (p : ℚ) (method : String) : RBM :=
  { m with penalty := [("weights", (method, p))] }

/-- Modelled from the spec: a registered constraint function (looked up by name
    in the external constraints module, e.g. a clipping constraint) acts
    elementwise and in place on the named parameter array. -/
def applyConstraintTo (reg : String → ℚ → ℚ) (m : RBM) (key cname : String) : RBM :=
  if key = "weights" then { m with weights := m.weights.map (fun row => row.map (reg cname)) }
  else if key = "visible_bias" then { m with visible_bias := m.visible_bias.map (reg cname) }
  else if key = "hidden_bias" then { m with hidden_bias := m.hidden_bias.map (reg cname) }
  else m

/-- LatentModel.enforce_constraints: applies every registered constraint to its
    parameter, in registration order. -/
def enforce_constraints (reg : String → ℚ → ℚ) (m : RBM) : RBM :=
  m.constraints.foldl (fun mm kc => applyConstraintTo reg mm kc.1 kc.2) m

-- ==== initialize (RestrictedBoltzmannMachine.initialize) ====

/-- Observable events on the failure path of RestrictedBoltzmannMachine's
    initialize: the except-branch print, and the NameError raised when the
    never-bound local `func` is subsequently called. -/
inductive InitEvent where
  | printedInvalidMethodMessage
  | raisedNameError
deriving DecidableEq

/-- RestrictedBoltzmannMachine.initialize: looks the method name up in the
    external init module (modelled as a registry association list).  On success
    it runs the strategy and then enforce_constraints.  On lookup failure the
    except-branch only prints a diagnostic, after which execution proceeds to
    call the unbound local `func`, raising an uncontrolled NameError: no model
    is produced and no clean error is signalled at the point of lookup. -/
def rbmInit (registry : List (String × (List (List ℚ) → RBM → RBM)))
    (reg : String → ℚ → ℚ) (data : List (List ℚ)) (m : RBM) (method : String) :
    List InitEvent × Option RBM :=
  match registry.lookup method with
  | some f => ([], some (enforce_constraints reg (f data m)))
  | none => ([InitEvent.printedInvalidMethodMessage, InitEvent.raisedNameError], none)

-- ==== resampling (LatentModel.resample_state) ====

/-- Modelled from the spec: `en.importance_weights(energies, temperature)` of
    the external backend converts energies to weights exp(-E/T) normalized to
    sum to one. -/
noncomputable def importance_weights (energies : List ℝ) (temperature : ℝ) : List ℝ :=
  let ws := energies.map (fun e => Real.exp (-e / temperature))
  ws.map (fun w => w / ws.sum)

/-- LatentModel.resample_state: obtains energies from the dispatched
    marginal_energy, converts them to importance weights clipped at zero, and
    redraws len(v) rows of v with replacement at the indices returned by
    numpy.random.choice.  `draws i` is the i-th index the generator returns for
    the weighted categorical draw; a None energy (the placeholder) propagates
    to a crash, modelled as `none`. -/
noncomputable def resample_state (marginalEnergy : List (List ℚ) → Option (List ℝ))
    (v : List (List ℚ)) (temperature : ℝ) (draws : ℕ → ℕ) : Option (List (List ℚ)) :=
  (marginalEnergy v).map (fun energies =>
    let weights := (importance_weights energies temperature).map (fun w => max w 0)
    let indices := (List.range v.length).map draws
    indices.map (fun i => v.getD i []))

/-- Validity of the index stream numpy.random.choice(arange(n), ...) returns:
    every drawn index is below n. -/
def drawsValid (n : ℕ) (draws : ℕ → ℕ) : Prop := ∀ i, i < n → draws i < n

/-- The conclusion of the resample_state contract: the call succeeds, returns a
    batch of the same size whose rows all come from the input batch, and the
    internally computed importance weights are non-negative and sum to one
    before clipping. -/
def resampleStateOk (E : List (List ℚ) → List ℝ) (v : List (List ℚ)) (T : ℝ)
    (draws : ℕ → ℕ) : Prop :=
  (∃ out, resample_state (fun b => some (E b)) v T draws = some out ∧
    out.length = v.length ∧ ∀ r ∈ out, r ∈ v) ∧
  (∀ w ∈ importance_weights (E v) T, 0 ≤ w) ∧
  (importance_weights (E v) T).sum = 1

-- ==== chain / iteration machinery (LatentModel) ====

/-- LatentModel.mcstep: one Gibbs transition v → h → v', threading the
    process-wide random generator state. -/
def mcstep {V H R : Type} (sampleHidden : V → R → H × R) (sampleVisible : H → R → V × R)
    (vis : V) (r : R) : V × R :=
  sampleVisible (sampleHidden vis r).1 (sampleHidden vis r).2

/-- LatentModel.markov_chain: `steps` sequential mcstep transitions starting
    from vis.astype(vis.dtype) (the identity on values), with resample_state
    (already dispatched, passed as resampleF) after each transition when the
    resample flag is set. -/
def markov_chain {V H R : Type} (sampleHidden : V → R → H × R) (sampleVisible : H → R → V × R)
    (resampleF : V → ℚ → R → V × R) (vis : V) (steps : ℕ) (resample : Bool)
    (temperature : ℚ) (r : R) : V × R :=
  match steps with
  | 0 => (vis, r)
  | Nat.succ n =>
    let s1 := mcstep sampleHidden sampleVisible vis r
    let s2 := if resample then resampleF s1.1 temperature s1.2 else s1
    markov_chain sampleHidden sampleVisible resampleF s2.1 n resample temperature s2.2

/-- n-fold composition of mcstep under the same threading of random draws. -/
def mcstepN {V H R : Type} (sampleHidden : V → R → H × R) (sampleVisible : H → R → V × R) :
    ℕ → V → R → V × R
  | 0, v, r => (v, r)
  | Nat.succ n, v, r =>
    mcstepN sampleHidden sampleVisible n (mcstep sampleHidden sampleVisible v r).1
      (mcstep sampleHidden sampleVisible v r).2

/-- n-fold composition of (resample_state after mcstep) under the same
    threading of random draws. -/
def mcstepResampleN {V H R : Type} (sampleHidden : V → R → H × R)
    (sampleVisible : H → R → V × R) (resampleF : V → ℚ → R → V × R) (temperature : ℚ) :
    ℕ → V → R → V × R
  | 0, v, r => (v, r)
  | Nat.succ n, v, r =>
    mcstepResampleN sampleHidden sampleVisible resampleF temperature n
      (resampleF (mcstep sampleHidden sampleVisible v r).1 temperature
        (mcstep sampleHidden sampleVisible v r).2).1
      (resampleF (mcstep sampleHidden sampleVisible v r).1 temperature
        (mcstep sampleHidden sampleVisible v r).2).2

/-- LatentModel.mean_field_step: v → hidden_mean → visible_mean (deterministic). -/
def mean_field_step {V H : Type} (hiddenMean : V → H) (visibleMean : H → V) (v : V) : V :=
  visibleMean (hiddenMean v)

/-- LatentModel.mean_field_iteration: `steps` sequential mean_field_step
    applications starting from vis.astype(vis.dtype). -/
def mean_field_iteration {V H : Type} (hiddenMean : V → H) (visibleMean : H → V)
    (vis : V) (steps : ℕ) : V :=
  match steps with
  | 0 => vis
  | Nat.succ n => mean_field_iteration hiddenMean visibleMean
      (mean_field_step hiddenMean visibleMean vis) n

/-- LatentModel.deterministic_step: v → hidden_mode → visible_mode. -/
def deterministic_step {V H : Type} (hiddenMode : V → H) (visibleMode : H → V) (v : V) : V :=
  visibleMode (hiddenMode v)

/-- LatentModel.deterministic_iteration: `steps` sequential deterministic_step
    applications starting from vis.astype(vis.dtype). -/
def deterministic_iteration {V H : Type} (hiddenMode : V → H) (visibleMode : H → V)
    (vis : V) (steps : ℕ) : V :=
  match steps with
  | 0 => vis
  | Nat.succ n => deterministic_iteration hiddenMode visibleMode
      (deterministic_step hiddenMode visibleMode vis) n

-- ==== shape predicates and concrete instances ====

/-- The parameter arrays have the shapes declared at construction. -/
def wfParams (nvis nhid : ℕ) (m : RBM) : Prop :=
  m.weights.length = nvis ∧ (∀ row ∈ m.weights, row.length = nhid) ∧
  m.visible_bias.length = nvis ∧ m.hidden_bias.length = nhid

/-- Shapes match (nvis, nhid) and all three parameters carry float32. -/
def wellShaped (nvis nhid : ℕ) (m : RBM) : Prop :=
  wfParams nvis nhid m ∧ m.wdtype = DType.float32 ∧ m.vbdtype = DType.float32 ∧
  m.hbdtype = DType.float32

/-- Every row of a visible batch has length n. -/
def batchShaped (n : ℕ) (V : List (List ℚ)) : Prop := ∀ row ∈ V, row.length = n

instance (n : ℕ) (V : List (List ℚ)) : Decidable (batchShaped n V) := by
  unfold batchShaped
  infer_instance

/-- The conclusion of the amended add_constraints claim: the call fails, and
    exactly the registrations for the longest valid leading run of the input
    map have been performed (and remain after the failure). -/
def addConstraintsPartialOk (m : RBM) (cons : List (String × String)) : Prop :=
  (add_constraints m cons).2 = false ∧
  (add_constraints m cons).1.constraints =
    registerAll (cons.takeWhile (fun p => decide (p.1 ∈ paramKeys m))) m.constraints

/-- A concrete 1 × 1 machine with zero weights, as mkRBM builds it from the
    zero normal draw. -/
def rbm11zero : RBM :=
  { nvis := 1
    nhid := 1
    weights := [[0]]
    visible_bias := [0]
    hidden_bias := [0]
    wdtype := DType.float32
    vbdtype := DType.float32
    hbdtype := DType.float32
    constraints := []
    penalty := [] }

/-- A concrete 1 × 1 machine used as explicit input for counterexamples and
    witnesses. -/
def rbm11 : RBM :=
  { nvis := 1
    nhid := 1
    weights := [[1]]
    visible_bias := [0]
    hidden_bias := [0]
    wdtype := DType.float32
    vbdtype := DType.float32
    hbdtype := DType.float32
    constraints := []
    penalty := [] }

-- ==== theorems ====

-- general facts about the chain machinery

/-- Claim C6: markov_chain with steps = 0 and resample = false is the identity
    on the visible state (the input is returned value-unchanged, its astype to
    its own dtype being the identity on values) and consumes no randomness:
    no Gibbs transition and no resampling happens. -/
theorem markov_chain_zero_steps {V H R : Type} (sampleHidden : V → R → H × R)
    (sampleVisible : H → R → V × R) (resampleF : V → ℚ → R → V × R) (v : V)
    (T : ℚ) (r : R) :
    markov_chain sampleHidden sampleVisible resampleF v 0 false T r = (v, r) := rfl

/-- Claim C10: the zero-step identity behavior also holds for the mean-field
    and deterministic iteration families: with steps = 0 both return the input
    visible state unchanged. -/
theorem iteration_zero_steps {V H : Type} (hiddenMean : V → H) (visibleMean : H → V)
    (hiddenMode : V → H) (visibleMode : H → V) (v : V) :
    mean_field_iteration hiddenMean visibleMean v 0 = v ∧
    deterministic_iteration hiddenMode visibleMode v 0 = v := ⟨rfl, rfl⟩

/-- Claim C7: with the same random draws, markov_chain with resample = false is
    the n-fold composition of mcstep (in particular two steps are
    mcstep ∘ mcstep), and with resample set, resample_state (the dispatched
    resampleF) is applied after every one of the n mcstep transitions. -/
theorem markov_chain_iterates_mcstep {V H R : Type} (sh : V → R → H × R)
    (sv : H → R → V × R) (rf : V → ℚ → R → V × R) (T : ℚ) :
    (∀ (n : ℕ) (v : V) (r : R),
      markov_chain sh sv rf v n false T r = mcstepN sh sv n v r) ∧
    (∀ (n : ℕ) (v : V) (r : R),
      markov_chain sh sv rf v n true T r = mcstepResampleN sh sv rf T n v r) ∧
    (∀ (v : V) (r : R),
      markov_chain sh sv rf v 2 false T r =
        mcstep sh sv (mcstep sh sv v r).1 (mcstep sh sv v r).2) := by
  refine ⟨?_, ?_, ?_⟩
  · intro n
    induction n with
    | zero => intro v r; rfl
    | succ k ih =>
      intro v r
      simpa [markov_chain, mcstepN] using ih (mcstep sh sv v r).1 (mcstep sh sv v r).2
  · intro n
    induction n with
    | zero => intro v r; rfl
    | succ k ih =>
      intro v r
      simpa [markov_chain, mcstepResampleN] using
        ih (rf (mcstep sh sv v r).1 T (mcstep sh sv v r).2).1
          (rf (mcstep sh sv v r).1 T (mcstep sh sv v r).2).2
  · intro v r
    rfl

-- initialize: uncontrolled failure on unknown method names

/-- Claim C5: when initialize is called with a method name the init registry
    does not contain, the lookup failure is only reported by printing a
    diagnostic message, after which the unbound local func is invoked and an
    uncontrolled NameError is raised — no clean error at the point of lookup
    and no initialized model. -/
theorem init_unknown_method_uncontrolled (registry : List (String × (List (List ℚ) → RBM → RBM)))
    (reg : String → ℚ → ℚ) (data : List (List ℚ)) (m : RBM) (method : String)
    (h : registry.lookup method = none) :
    rbmInit registry reg data m method =
      ([InitEvent.printedInvalidMethodMessage, InitEvent.raisedNameError], none) := by
  unfold rbmInit
  rw [h]

/-- Witness for init_unknown_method_uncontrolled at the empty registry and the
    method name "hinton". -/
theorem init_unknown_method_uncontrolled_witness :
    (([] : List (String × (List (List ℚ) → RBM → RBM))).lookup ("hinton") = none) ∧
    rbmInit [] (fun _ x => x) [] rbm11 ("hinton") =
      ([InitEvent.printedInvalidMethodMessage, InitEvent.raisedNameError], none) :=
  ⟨rfl, init_unknown_method_uncontrolled [] (fun _ x => x) [] rbm11 ("hinton") rfl⟩

-- C1: the energies feeding resample_state

/-- Claim C1 (code bug): resample_state obtains its energies from the
    dispatched marginal_energy, which on a RestrictedBoltzmannMachine is the
    inherited placeholder returning None — the model's marginal_free_energy is
    never consulted — so the call crashes (propagated none) instead of
    converting per-sample marginal free energies to importance weights; had
    the per-sample marginal_free_energy been wired in as the spec states, the
    same call would succeed. -/
theorem resample_state_energy_wiring_bug :
    RBM.marginal_energy rbm11 [[1]] = none ∧
    resample_state (RBM.marginal_energy rbm11) [[1]] 1 (fun _ => 0) = none ∧
    resample_state
      (fun b => some (b.map (fun row => ((marginal_free_energy rbm11 (fun x => x) row : ℚ) : ℝ))))
      [[1]] 1 (fun _ => 0) = some [[1]] := by
  refine ⟨rfl, rfl, ?_⟩
  rfl

-- C2: add_constraints is not atomic on failure

/-- Claim C2 counterexample: on the map {weights: c1, nope: c2} the call fails
    (the second key is not a parameter name) but the first key has already been
    registered when the assertion fails, so mutation does occur before the
    failure. -/
theorem add_constraints_not_atomic :
    (add_constraints rbm11 [("weights", "c1"), ("nope", "c2")]).2 = false ∧
    (add_constraints rbm11 [("weights", "c1"), ("nope", "c2")]).1.constraints ≠
      rbm11.constraints := by
  decide

/-- Claim C2 (amended): for every input map containing an invalid key, the call
    fails at the first invalid key, and exactly the keys of the longest valid
    leading run of the map have been registered before the failure (keys from
    the first invalid one onward are not registered). -/
theorem add_constraints_registers_valid_head (m : RBM) (cons : List (String × String))
    (h : hasInvalidKey m cons) : addConstraintsPartialOk m cons := by
  revert h
  induction cons generalizing m with
  | nil =>
    intro h
    obtain ⟨p, hp, _⟩ := h
    exact absurd hp (List.not_mem_nil p)
  | cons kc rest ih =>
    intro h
    obtain ⟨k, c⟩ := kc
    by_cases hk : k ∈ paramKeys m
    · have h' : hasInvalidKey { m with constraints := setKey m.constraints k c } rest := by
        obtain ⟨p, hp, hnp⟩ := h
        rcases List.mem_cons.mp hp with he | hr
        · subst he
          exact absurd hk hnp
        · exact ⟨p, hr, hnp⟩
      have hrec := ih { m with constraints := setKey m.constraints k c } h'
      have hpred : decide ((k, c).1 ∈ paramKeys m) = true := by simpa using hk
      constructor
      · show (add_constraints m ((k, c) :: rest)).2 = false
        simpa [add_constraints, hk] using hrec.1
      · show (add_constraints m ((k, c) :: rest)).1.constraints = _
        have hstep : add_constraints m ((k, c) :: rest) =
            add_constraints { m with constraints := setKey m.constraints k c } rest := by
          simp [add_constraints, hk]
        rw [hstep, hrec.2, List.takeWhile_cons]
        simp only [paramKeys] at hpred ⊢
        rw [hpred]
        simp [registerAll, paramKeys]
    · have hpred : decide ((k, c).1 ∈ paramKeys m) = false := by simpa using hk
      constructor
      · show (add_constraints m ((k, c) :: rest)).2 = false
        simp [add_constraints, hk]
      · show (add_constraints m ((k, c) :: rest)).1.constraints = _
        rw [List.takeWhile_cons]
        simp only [paramKeys] at hpred ⊢
        rw [hpred]
        simp [add_constraints, hk, registerAll]

/-- Witness for add_constraints_registers_valid_head on a concrete map whose
    only key is invalid. -/
theorem add_constraints_registers_valid_head_witness :
    hasInvalidKey rbm11 [("nope", "c")] ∧ addConstraintsPartialOk rbm11 [("nope", "c")] :=
  ⟨by decide, add_constraints_registers_valid_head rbm11 [("nope", "c")] (by decide)⟩

-- C4: the two joint_energy code paths

/-- Distributing a scalar over one sample's bilinear inner sum. -/
theorem zip_map_mul_sum (x : ℚ) : ∀ (row h : List ℚ),
    ((List.zip row h).map (fun q => x * q.1 * q.2)).sum = x * dotQ row h := by
  intro row
  induction row with
  | nil => intro h; simp [dotQ]
  | cons a as ih =>
    intro h
    cases h with
    | nil => simp [dotQ]
    | cons b bs =>
      simp only [List.zip_cons_cons, List.map_cons, List.sum_cons, dotQ,
        List.zipWith_cons_cons, ih bs]
      ring

/-- numpy.dot(v, numpy.dot(W, h)) agrees with the per-sample bilinear form
    Σ_ij v_i W_ij h_j computed by the backend batch_dot. -/
theorem dot_matVecW_eq_bilinear : ∀ (v : List ℚ) (W : List (List ℚ)) (h : List ℚ),
    dotQ v (matVecW W h) = bilinear v W h := by
  intro v
  induction v with
  | nil => intro W h; simp [dotQ, bilinear]
  | cons x xs ih =>
    intro W h
    cases W with
    | nil => simp [dotQ, matVecW, bilinear]
    | cons row rows =>
      simp only [matVecW, List.map_cons, dotQ, List.zipWith_cons_cons, List.sum_cons,
        bilinear, List.zip_cons_cons]
      rw [zip_map_mul_sum]
      have hxs := ih rows h
      simp only [dotQ, matVecW] at hxs
      simp only [bilinear] at hxs ⊢
      rw [hxs]
      rfl

/-- The elementwise combination inside joint_energy's batch branch is the
    per-sample energy list. -/
theorem joint_energy_batch_rows (m : RBM) : ∀ (V H : List (List ℚ)),
    List.zipWith (fun e c => e - c)
      (List.zipWith (fun v h => -dotQ v m.visible_bias - dotQ h m.hidden_bias) V H)
      (batch_dot V m.weights H) =
    (List.zip V H).map (fun p =>
      -dotQ p.1 m.visible_bias - dotQ p.2 m.hidden_bias - bilinear p.1 m.weights p.2) := by
  intro V
  induction V with
  | nil => intro H; simp [batch_dot]
  | cons v Vt ih =>
    intro H
    cases H with
    | nil => simp [batch_dot]
    | cons h Ht =>
      simp only [batch_dot, List.zip_cons_cons, List.map_cons, List.zipWith_cons_cons]
      congr 1
      simpa [batch_dot] using ih Ht

/-- Claim C4: joint_energy in batch mode on the singleton batch of (v, h)
    equals the single-sample joint_energy on v and h (exactly, in the exact
    rational model of float arithmetic), and in the batch path the bilinear
    term is computed per sample and the whole energy is averaged across the
    batch. -/
theorem joint_energy_paths_agree (m : RBM) :
    (∀ (v h : List ℚ), joint_energy_batch m [v] [h] = joint_energy_single m v h) ∧
    (∀ (V H : List (List ℚ)), joint_energy_batch m V H =
      meanQ ((List.zip V H).map (fun p =>
        -dotQ p.1 m.visible_bias - dotQ p.2 m.hidden_bias - bilinear p.1 m.weights p.2))) := by
  constructor
  · intro v h
    unfold joint_energy_batch joint_energy_single
    rw [joint_energy_batch_rows]
    simp [meanQ, List.zip_cons_cons]
    rw [dot_matVecW_eq_bilinear]
  · intro V H
    unfold joint_energy_batch
    rw [joint_energy_batch_rows]

-- C3: resample_state contract (generic in the dispatched marginal energy)

/-- Sums of exponential weight lists are non-negative. -/
theorem exp_weights_sum_nonneg (es : List ℝ) (T : ℝ) :
    0 ≤ (es.map (fun e => Real.exp (-e / T))).sum := by
  induction es with
  | nil => simp
  | cons a t ih =>
    simp only [List.map_cons, List.sum_cons]
    exact add_nonneg (Real.exp_pos _).le ih

/-- Sums of exponential weight lists over a non-empty energy list are positive. -/
theorem exp_weights_sum_pos (es : List ℝ) (T : ℝ) (h : es ≠ []) :
    0 < (es.map (fun e => Real.exp (-e / T))).sum := by
  cases es with
  | nil => exact absurd rfl h
  | cons a t =>
    simp only [List.map_cons, List.sum_cons]
    exact add_pos_of_pos_of_nonneg (Real.exp_pos _) (exp_weights_sum_nonneg t T)

/-- Dividing every list entry by s divides the sum by s. -/
theorem sum_map_div (l : List ℝ) (s : ℝ) : (l.map (fun w => w / s)).sum = l.sum / s := by
  induction l with
  | nil => simp
  | cons a t ih => simp [ih, add_div]

/-- Every importance weight is non-negative (before clipping). -/
theorem importance_weights_nonneg (es : List ℝ) (T : ℝ) :
    ∀ w ∈ importance_weights es T, 0 ≤ w := by
  intro w hw
  simp only [importance_weights, List.mem_map] at hw
  obtain ⟨x, hx, rfl⟩ := hw
  refine div_nonneg ?_ (exp_weights_sum_nonneg es T)
  obtain ⟨e, _, rfl⟩ := hx
  exact (Real.exp_pos _).le

/-- The importance weights of a non-empty energy list sum to one (before
    clipping). -/
theorem importance_weights_sum_one (es : List ℝ) (T : ℝ) (h : es ≠ []) :
    (importance_weights es T).sum = 1 := by
  simp only [importance_weights]
  rw [sum_map_div]
  exact div_self (ne_of_gt (exp_weights_sum_pos es T h))

/-- In-range getD indexing lands in the list. -/
theorem getD_mem_of_lt {α : Type} (d : α) : ∀ (l : List α) (i : ℕ), i < l.length →
    l.getD i d ∈ l := by
  intro l
  induction l with
  | nil => intro i h; simp at h
  | cons a t ih =>
    intro i h
    cases i with
    | zero => simp [List.getD]
    | succ k =>
      have : (a :: t).getD (k + 1) d = t.getD k d := rfl
      rw [this]
      exact List.mem_cons_of_mem a (ih k (by simpa using h))

/-- Claim C3: for a non-empty visible batch and any temperature, resample_state
    run over a per-sample marginal energy implementation returns a batch of the
    same size, every row of which is a row of the input (drawn with replacement
    from the original batch indices), and the importance weights it draws with
    are non-negative and sum to one before being clipped at zero. -/
theorem resample_state_contract (E : List (List ℚ) → List ℝ) (v : List (List ℚ)) (T : ℝ)
    (draws : ℕ → ℕ) (hne : v ≠ []) (hE : (E v).length = v.length)
    (hd : drawsValid v.length draws) : resampleStateOk E v T draws := by
  refine ⟨⟨((List.range v.length).map draws).map (fun i => v.getD i []), rfl, ?_, ?_⟩, ?_, ?_⟩
  · simp
  · intro r hr
    simp only [List.mem_map, List.mem_range] at hr
    obtain ⟨i, ⟨k, hk, rfl⟩, rfl⟩ := hr
    exact getD_mem_of_lt [] v (draws k) (hd k hk)
  · exact importance_weights_nonneg (E v) T
  · refine importance_weights_sum_one (E v) T ?_
    intro hnil
    apply hne
    rw [hnil] at hE
    exact List.length_eq_zero.mp hE.symm

/-- Witness for resample_state_contract: singleton batch, zero energies,
    temperature one, constant draw of index zero. -/
theorem resample_state_contract_witness :
    ([[(1 : ℚ)]] ≠ ([] : List (List ℚ))) ∧ drawsValid 1 (fun _ => 0) ∧
    resampleStateOk (fun b => b.map (fun _ => (0 : ℝ))) [[(1 : ℚ)]] 1 (fun _ => 0) :=
  ⟨by decide, fun _ _ => Nat.one_pos,
    resample_state_contract (fun b => b.map (fun _ => (0 : ℝ))) [[(1 : ℚ)]] 1 (fun _ => 0)
      (by decide) (by simp) (fun _ _ => Nat.one_pos)⟩

-- C9: parameter shapes and precision

/-- add_constraints never touches the parameter arrays or their dtypes, only
    the constraints dict. -/
theorem add_constraints_params : ∀ (cons : List (String × String)) (m : RBM),
    (add_constraints m cons).1.weights = m.weights ∧
    (add_constraints m cons).1.visible_bias = m.visible_bias ∧
    (add_constraints m cons).1.hidden_bias = m.hidden_bias ∧
    (add_constraints m cons).1.wdtype = m.wdtype ∧
    (add_constraints m cons).1.vbdtype = m.vbdtype ∧
    (add_constraints m cons).1.hbdtype = m.hbdtype := by
  intro cons
  induction cons with
  | nil => intro m; exact ⟨rfl, rfl, rfl, rfl, rfl, rfl⟩
  | cons kc rest ih =>
    intro m
    obtain ⟨k, c⟩ := kc
    by_cases hk : k ∈ paramKeys m
    · simpa [add_constraints, hk] using ih { m with constraints := setKey m.constraints k c }
    · simp [add_constraints, hk]

/-- Transport of the shape/precision invariant along equal parameter fields. -/
theorem wellShaped_congr (n1 n2 : ℕ) (a b : RBM) (hw : a.weights = b.weights)
    (hv : a.visible_bias = b.visible_bias) (hh : a.hidden_bias = b.hidden_bias)
    (d1 : a.wdtype = b.wdtype) (d2 : a.vbdtype = b.vbdtype) (d3 : a.hbdtype = b.hbdtype)
    (h : wellShaped n1 n2 b) : wellShaped n1 n2 a := by
  obtain ⟨⟨g1, g2, g3, g4⟩, e1, e2, e3⟩ := h
  refine ⟨⟨?_, ?_, ?_, ?_⟩, ?_, ?_, ?_⟩
  · rw [hw]; exact g1
  · rw [hw]; exact g2
  · rw [hv]; exact g3
  · rw [hh]; exact g4
  · rw [d1]; exact e1
  · rw [d2]; exact e2
  · rw [d3]; exact e3

/-- An elementwise constraint application preserves shapes and dtypes. -/
theorem wellShaped_applyConstraintTo (n1 n2 : ℕ) (reg : String → ℚ → ℚ) (m : RBM)
    (key cname : String) (h : wellShaped n1 n2 m) :
    wellShaped n1 n2 (applyConstraintTo reg m key cname) := by
  obtain ⟨⟨g1, g2, g3, g4⟩, e1, e2, e3⟩ := h
  unfold applyConstraintTo
  split_ifs
  · refine ⟨⟨by simpa using g1, ?_, g3, g4⟩, e1, e2, e3⟩
    intro row hrow
    simp only [List.mem_map] at hrow
    obtain ⟨r0, hr0, rfl⟩ := hrow
    simpa using g2 r0 hr0
  · exact ⟨⟨g1, g2, by simpa using g3, g4⟩, e1, e2, e3⟩
  · exact ⟨⟨g1, g2, g3, by simpa using g4⟩, e1, e2, e3⟩
  · exact ⟨⟨g1, g2, g3, g4⟩, e1, e2, e3⟩

/-- Folding constraint applications preserves shapes and dtypes. -/
theorem wellShaped_foldl (n1 n2 : ℕ) (reg : String → ℚ → ℚ) :
    ∀ (l : List (String × String)) (m : RBM), wellShaped n1 n2 m →
      wellShaped n1 n2
        (l.foldl (fun mm kc => applyConstraintTo reg mm kc.1 kc.2) m) := by
  intro l
  induction l with
  | nil => intro m h; simpa using h
  | cons kc rest ih =>
    intro m h
    simp only [List.foldl_cons]
    exact ih _ (wellShaped_applyConstraintTo n1 n2 reg m kc.1 kc.2 h)

/-- Claim C9: a successful construction yields weights of shape (nvis, nhid)
    and biases of lengths nvis and nhid, all tagged float32, and the invariant
    is preserved by every model-returning core operation (constraint
    registration, weight decay installation, constraint enforcement); the
    state-returning sampling operations never touch the parameters. -/
theorem rbm_construction_shapes (nvis nhid : ℕ) (vt ht : String) (draw : ℕ → ℕ → ℚ)
    (m : RBM) (hm : mkRBM nvis nhid vt ht draw = some m) :
    wellShaped nvis nhid m ∧
    ∀ m', wellShaped nvis nhid m' →
      (∀ cons, wellShaped nvis nhid (add_constraints m' cons).1) ∧
      (∀ p meth, wellShaped nvis nhid (add_weight_decay m' p meth)) ∧
      (∀ reg, wellShaped nvis nhid (enforce_constraints reg m')) := by
  constructor
  · unfold mkRBM at hm
    split_ifs at hm with htag
    · simp only [Option.some.injEq] at hm
      subst hm
      refine ⟨⟨by simp, ?_, by simp, by simp⟩, rfl, rfl, rfl⟩
      intro row hrow
      simp only [List.mem_map] at hrow
      obtain ⟨i, _, rfl⟩ := hrow
      simp
  · intro m' h
    refine ⟨?_, ?_, ?_⟩
    · intro cons
      obtain ⟨p1, p2, p3, p4, p5, p6⟩ := add_constraints_params cons m'
      exact wellShaped_congr nvis nhid _ m' p1 p2 p3 p4 p5 p6 h
    · intro p meth
      exact wellShaped_congr nvis nhid _ m' rfl rfl rfl rfl rfl rfl h
    · intro reg
      unfold enforce_constraints
      exact wellShaped_foldl nvis nhid reg m'.constraints m' h

/-- Witness for rbm_construction_shapes: the 1 × 1 construction with the zero
    normal draw and valid layer tags. -/
theorem rbm_construction_shapes_witness :
    mkRBM 1 1 ("ising") ("bernoulli") (fun _ _ => 0) = some rbm11zero ∧
    wellShaped 1 1 rbm11zero :=
  ⟨by decide,
    (rbm_construction_shapes 1 1 ("ising") ("bernoulli") (fun _ _ => 0) rbm11zero
      (by decide)).1⟩

-- C8: derivatives — shape and pointwise value lemmas

/-- The all-zero vector reads zero at every index. -/
theorem idx1_replicate_zero : ∀ (n i : ℕ), idx1 (List.replicate n (0 : ℚ)) i = 0 := by
  intro n
  induction n with
  | zero => intro i; rfl
  | succ k ih =>
    intro i
    cases i with
    | zero => rfl
    | succ j => exact ih j

/-- Total indexing commutes with mapping a zero-preserving function. -/
theorem idx1_map_zero (f : ℚ → ℚ) (hf : f 0 = 0) : ∀ (l : List ℚ) (i : ℕ),
    idx1 (l.map f) i = f (idx1 l i) := by
  intro l
  induction l with
  | nil => intro i; simp [idx1, hf]
  | cons a t ih =>
    intro i
    cases i with
    | zero => rfl
    | succ j => exact ih j

/-- Total indexing distributes over elementwise vector addition of two
    equal-length vectors. -/
theorem idx1_addVec : ∀ (a b : List ℚ), a.length = b.length → ∀ (i : ℕ),
    idx1 (addVec a b) i = idx1 a i + idx1 b i := by
  intro a
  induction a with
  | nil =>
    intro b hb i
    have : b = [] := List.length_eq_zero.mp hb.symm
    subst this
    simp [addVec, idx1]
  | cons x xs ih =>
    intro b hb i
    cases b with
    | nil => simp at hb
    | cons y ys =>
      cases i with
      | zero => rfl
      | succ j => exact ih ys (by simpa using hb) j

/-- The columnwise sum of a batch of length-n vectors has length n. -/
theorem length_sumVecs (n : ℕ) : ∀ (rows : List (List ℚ)),
    (∀ r ∈ rows, r.length = n) → (sumVecs n rows).length = n := by
  intro rows
  induction rows with
  | nil => intro _; simp [sumVecs]
  | cons r rest ih =>
    intro h
    have hr : r.length = n := h r (List.mem_cons_self r rest)
    have htail := ih (fun s hs => h s (List.mem_cons_of_mem r hs))
    simp [sumVecs, addVec, hr, htail]

/-- Total indexing turns the columnwise sum into the sum of the entries read
    off each batch row. -/
theorem idx1_sumVecs (n : ℕ) : ∀ (rows : List (List ℚ)),
    (∀ r ∈ rows, r.length = n) → ∀ (i : ℕ),
      idx1 (sumVecs n rows) i = (rows.map (fun r => idx1 r i)).sum := by
  intro rows
  induction rows with
  | nil => intro _ i; simpa [sumVecs] using idx1_replicate_zero n i
  | cons r rest ih =>
    intro h i
    have hr : r.length = n := h r (List.mem_cons_self r rest)
    have htail : ∀ s ∈ rest, s.length = n := fun s hs => h s (List.mem_cons_of_mem r hs)
    have hlen : r.length = (sumVecs n rest).length := by rw [hr, length_sumVecs n rest htail]
    simp only [sumVecs, List.map_cons, List.sum_cons]
    rw [idx1_addVec r (sumVecs n rest) hlen i, ih htail i]

/-- Mapping a nil-preserving row transformation commutes with row selection. -/
theorem getD_map_nil (g : List ℚ → List ℚ) (hg : g [] = []) : ∀ (M : List (List ℚ)) (i : ℕ),
    (M.map g).getD i [] = g (M.getD i []) := by
  intro M
  induction M with
  | nil => intro i; simp [hg]
  | cons r rest ih =>
    intro i
    cases i with
    | zero => rfl
    | succ j => exact ih j

/-- Pointwise reading of the negated matrix. -/
theorem idx2_negM : ∀ (M : List (List ℚ)) (i j : ℕ), idx2 (negM M) i j = -(idx2 M i j) := by
  intro M i j
  unfold negM idx2
  rw [getD_map_nil negVec rfl M i]
  exact idx1_map_zero (fun x => -x) neg_zero (M.getD i []) j

/-- Pointwise reading of the rescaled matrix. -/
theorem idx2_scaleM (c : ℚ) : ∀ (M : List (List ℚ)) (i j : ℕ),
    idx2 (scaleM c M) i j = c * idx2 M i j := by
  intro M i j
  unfold scaleM idx2
  rw [getD_map_nil (fun row => scale c row) rfl M i]
  exact idx1_map_zero (fun x => c * x) (mul_zero c) (M.getD i []) j

/-- Pointwise reading of a single-sample outer product. -/
theorem idx2_outer : ∀ (a b : List ℚ) (i j : ℕ), idx2 (outer a b) i j = idx1 a i * idx1 b j := by
  intro a
  induction a with
  | nil => intro b i j; simp [outer, idx2, idx1]
  | cons x xs ih =>
    intro b i j
    cases i with
    | zero =>
      show idx1 (b.map (fun y => x * y)) j = x * idx1 b j
      exact idx1_map_zero (fun y => x * y) (mul_zero x) b j
    | succ k => exact ih b k j

/-- Pointwise reading of the elementwise sum of two matrices of equal shape. -/
theorem idx2_addMat (n2 : ℕ) : ∀ (A B : List (List ℚ)), A.length = B.length →
    (∀ r ∈ A, r.length = n2) → (∀ r ∈ B, r.length = n2) → ∀ (i j : ℕ),
      idx2 (addMat A B) i j = idx2 A i j + idx2 B i j := by
  intro A
  induction A with
  | nil =>
    intro B hB _ _ i j
    have : B = [] := List.length_eq_zero.mp hB.symm
    subst this
    simp [addMat, idx2, idx1]
  | cons a At ih =>
    intro B hB hAr hBr i j
    cases B with
    | nil => simp at hB
    | cons b Bt =>
      cases i with
      | zero =>
        show idx1 (addVec a b) j = idx1 a j + idx1 b j
        refine idx1_addVec a b ?_ j
        rw [hAr a (List.mem_cons_self a At), hBr b (List.mem_cons_self b Bt)]
      | succ k =>
        exact ih Bt (by simpa using hB) (fun r hr => hAr r (List.mem_cons_of_mem a hr))
          (fun r hr => hBr r (List.mem_cons_of_mem b hr)) k j

/-- The zero matrix reads zero everywhere. -/
theorem idx2_zeroM : ∀ (n1 n2 i j : ℕ), idx2 (zeroM n1 n2) i j = 0 := by
  intro n1
  induction n1 with
  | zero => intro n2 i j; simp [zeroM, idx2, idx1]
  | succ k ih =>
    intro n2 i j
    cases i with
    | zero =>
      show idx1 (List.replicate n2 (0 : ℚ)) j = 0
      exact idx1_replicate_zero n2 j
    | succ l => exact ih n2 l j


/-- Rows of an elementwise matrix sum keep the common row length. -/
theorem rows_addMat (n2 : ℕ) : ∀ (A B : List (List ℚ)), (∀ r ∈ A, r.length = n2) →
    (∀ r ∈ B, r.length = n2) → ∀ r ∈ addMat A B, r.length = n2 := by
  intro A
  induction A with
  | nil =>
    intro B _ _ r hr
    simp [addMat] at hr
  | cons a At ih =>
    intro B hAr hBr r hr
    cases B with
    | nil => simp [addMat] at hr
    | cons b Bt =>
      simp only [addMat, List.zipWith_cons_cons, List.mem_cons] at hr
      rcases hr with hr | hr
      · subst hr
        simp only [addVec]
        rw [List.length_zipWith, hAr a (List.mem_cons_self a At),
          hBr b (List.mem_cons_self b Bt)]
        exact Nat.min_self n2
      · exact ih Bt (fun s hs => hAr s (List.mem_cons_of_mem a hs))
          (fun s hs => hBr s (List.mem_cons_of_mem b hs)) r hr

/-- A sum of matrices with n1 rows has n1 rows. -/
theorem length_sumMats (n1 n2 : ℕ) : ∀ (Ms : List (List (List ℚ))),
    (∀ M ∈ Ms, M.length = n1) → (sumMats n1 n2 Ms).length = n1 := by
  intro Ms
  induction Ms with
  | nil => intro _; simp [sumMats, zeroM]
  | cons M rest ih =>
    intro h
    have hM : M.length = n1 := h M (List.mem_cons_self M rest)
    have htail := ih (fun N hN => h N (List.mem_cons_of_mem M hN))
    simp only [sumMats, addMat]
    rw [List.length_zipWith, hM, htail]
    exact Nat.min_self n1

/-- Rows of a sum of matrices with row length n2 keep row length n2. -/
theorem rows_sumMats (n1 n2 : ℕ) : ∀ (Ms : List (List (List ℚ))),
    (∀ M ∈ Ms, ∀ r ∈ M, r.length = n2) → ∀ r ∈ sumMats n1 n2 Ms, r.length = n2 := by
  intro Ms
  induction Ms with
  | nil =>
    intro _ r hr
    simp only [sumMats, zeroM] at hr
    rw [List.eq_of_mem_replicate hr]
    simp
  | cons M rest ih =>
    intro h r hr
    exact rows_addMat n2 M (sumMats n1 n2 rest) (h M (List.mem_cons_self M rest))
      (ih (fun N hN => h N (List.mem_cons_of_mem M hN))) r hr

/-- Pointwise reading of a sum of same-shape matrices. -/
theorem idx2_sumMats (n1 n2 : ℕ) : ∀ (Ms : List (List (List ℚ))),
    (∀ M ∈ Ms, M.length = n1 ∧ ∀ r ∈ M, r.length = n2) → ∀ (i j : ℕ),
      idx2 (sumMats n1 n2 Ms) i j = (Ms.map (fun M => idx2 M i j)).sum := by
  intro Ms
  induction Ms with
  | nil => intro _ i j; simpa [sumMats] using idx2_zeroM n1 n2 i j
  | cons M rest ih =>
    intro h i j
    have hM := h M (List.mem_cons_self M rest)
    have htail : ∀ N ∈ rest, N.length = n1 ∧ ∀ r ∈ N, r.length = n2 :=
      fun N hN => h N (List.mem_cons_of_mem M hN)
    have hlen : M.length = (sumMats n1 n2 rest).length := by
      rw [hM.1, length_sumMats n1 n2 rest (fun N hN => (htail N hN).1)]
    simp only [sumMats, List.map_cons, List.sum_cons]
    rw [idx2_addMat n2 M (sumMats n1 n2 rest) hlen hM.2
      (rows_sumMats n1 n2 rest (fun N hN => (htail N hN).2)) i j, ih htail i j]

/-- The hidden field of a wellformed model has length nhid. -/
theorem length_vecMat (n : ℕ) : ∀ (xs : List ℚ) (W : List (List ℚ)),
    (∀ row ∈ W, row.length = n) → (vecMat n xs W).length = n := by
  intro xs
  induction xs with
  | nil => intro W _; simp [vecMat]
  | cons x xt ih =>
    intro W hW
    cases W with
    | nil => simp [vecMat]
    | cons row rows =>
      have hrow : row.length = n := hW row (List.mem_cons_self row rows)
      have htail := ih rows (fun s hs => hW s (List.mem_cons_of_mem row hs))
      simp only [vecMat, addVec, scale]
      rw [List.length_zipWith, List.length_map, hrow, htail]
      exact Nat.min_self n

/-- hidden_field output length equals nhid for a model with wellformed
    parameters. -/
theorem length_hidden_field (m : RBM) (hm : wfParams m.nvis m.nhid m) (v : List ℚ) :
    (hidden_field m v).length = m.nhid := by
  obtain ⟨h1, h2, h3, h4⟩ := hm
  unfold hidden_field
  simp only [addVec]
  rw [List.length_zipWith, length_vecMat m.nhid v m.weights h2, h4]
  exact Nat.min_self m.nhid

/-- Claim C8: derivatives returns a record with exactly the keys weights,
    visible_bias and hidden_bias; in batch mode the entries have exactly the
    shapes of the weight matrix and the two bias vectors and are the negatives
    of the batch-averaged visible, the batch-averaged hidden mean, and the
    batch-averaged outer product of visible and hidden mean; in single-sample
    mode the same negated quantities appear without batch averaging. -/
theorem derivatives_spec (m : RBM) (μ : ℚ → ℚ) (V : List (List ℚ)) (v : List ℚ)
    (hm : wfParams m.nvis m.nhid m) (hV : batchShaped m.nvis V)
    (hv : v.length = m.nvis) :
    (derivatives_batch m μ V).visible_bias.length = m.nvis ∧
    (derivatives_batch m μ V).hidden_bias.length = m.nhid ∧
    (derivatives_batch m μ V).weights.length = m.nvis ∧
    (∀ row ∈ (derivatives_batch m μ V).weights, row.length = m.nhid) ∧
    (∀ i, idx1 (derivatives_batch m μ V).visible_bias i =
      -((V.map (fun r => idx1 r i)).sum / (V.length : ℚ))) ∧
    (∀ j, idx1 (derivatives_batch m μ V).hidden_bias j =
      -(((hidden_meanB m μ V).map (fun r => idx1 r j)).sum / (V.length : ℚ))) ∧
    (∀ i j, idx2 (derivatives_batch m μ V).weights i j =
      -(((List.zip V (hidden_meanB m μ V)).map
          (fun p => idx1 p.1 i * idx1 p.2 j)).sum / (V.length : ℚ))) ∧
    (derivatives_single m μ v).visible_bias.length = m.nvis ∧
    (derivatives_single m μ v).hidden_bias.length = m.nhid ∧
    (derivatives_single m μ v).weights.length = m.nvis ∧
    (∀ row ∈ (derivatives_single m μ v).weights, row.length = m.nhid) ∧
    (∀ i, idx1 (derivatives_single m μ v).visible_bias i = -(idx1 v i)) ∧
    (∀ j, idx1 (derivatives_single m μ v).hidden_bias j =
      -(idx1 (hidden_mean1 m μ v) j)) ∧
    (∀ i j, idx2 (derivatives_single m μ v).weights i j =
      -(idx1 v i * idx1 (hidden_mean1 m μ v) j)) := by
  have hHB : ∀ r ∈ hidden_meanB m μ V, r.length = m.nhid := by
    intro r hr
    simp only [hidden_meanB, List.mem_map] at hr
    obtain ⟨w, _, rfl⟩ := hr
    simp only [hidden_mean1, List.length_map]
    exact length_hidden_field m hm w
  have hshapes : ∀ M ∈ (List.zip V (hidden_meanB m μ V)).map (fun p => outer p.1 p.2),
      M.length = m.nvis ∧ ∀ r ∈ M, r.length = m.nhid := by
    intro M hM
    simp only [List.mem_map] at hM
    obtain ⟨⟨p1, p2⟩, hp, rfl⟩ := hM
    have hz := List.of_mem_zip hp
    constructor
    · simp only [outer, List.length_map]
      exact hV p1 hz.1
    · intro r hr
      simp only [outer, List.mem_map] at hr
      obtain ⟨x, _, rfl⟩ := hr
      simp only [List.length_map]
      exact hHB p2 hz.2
  have e4 : ∀ i, idx1 (colMean m.nvis V) i = (V.map (fun r => idx1 r i)).sum / (V.length : ℚ) := by
    intro i
    simp only [colMean]
    rw [idx1_map_zero (fun x => x / (V.length : ℚ)) (zero_div _) (sumVecs m.nvis V) i,
      idx1_sumVecs m.nvis V hV i]
  have e4h : ∀ j, idx1 (colMean m.nhid (hidden_meanB m μ V)) j =
      ((hidden_meanB m μ V).map (fun r => idx1 r j)).sum / (V.length : ℚ) := by
    intro j
    simp only [colMean]
    rw [idx1_map_zero (fun x => x / ((hidden_meanB m μ V).length : ℚ)) (zero_div _)
      (sumVecs m.nhid (hidden_meanB m μ V)) j,
      idx1_sumVecs m.nhid (hidden_meanB m μ V) hHB j]
    simp [hidden_meanB]
  have e5 : ∀ i j, idx2 (batch_outer m.nvis m.nhid V (hidden_meanB m μ V)) i j =
      (1 / (V.length : ℚ)) *
        ((List.zip V (hidden_meanB m μ V)).map (fun p => idx1 p.1 i * idx1 p.2 j)).sum := by
    intro i j
    simp only [batch_outer]
    rw [idx2_scaleM (1 / (V.length : ℚ)) _ i j,
      idx2_sumMats m.nvis m.nhid _ hshapes i j, List.map_map]
    have hfun : ((fun M => idx2 M i j) ∘ fun p : List ℚ × List ℚ => outer p.1 p.2) =
        fun p : List ℚ × List ℚ => idx1 p.1 i * idx1 p.2 j := by
      funext p
      exact idx2_outer p.1 p.2 i j
    rw [hfun]
  refine ⟨?_, ?_, ?_, ?_, ?_, ?_, ?_, ?_, ?_, ?_, ?_, ?_, ?_, ?_⟩
  · show (negVec (colMean m.nvis V)).length = m.nvis
    simp only [negVec, colMean, List.length_map]
    exact length_sumVecs m.nvis V hV
  · show (negVec (colMean m.nhid (hidden_meanB m μ V))).length = m.nhid
    simp only [negVec, colMean, List.length_map]
    exact length_sumVecs m.nhid (hidden_meanB m μ V) hHB
  · show (negM (batch_outer m.nvis m.nhid V (hidden_meanB m μ V))).length = m.nvis
    simp only [negM, batch_outer, scaleM, List.length_map]
    exact length_sumMats m.nvis m.nhid _ (fun M hM => (hshapes M hM).1)
  · intro row hrow
    simp only [derivatives_batch, negM, batch_outer, scaleM, List.mem_map] at hrow
    obtain ⟨r1, ⟨r0, hr0, rfl⟩, rfl⟩ := hrow
    simp only [negVec, scale, List.length_map]
    exact rows_sumMats m.nvis m.nhid _ (fun M hM => (hshapes M hM).2) r0 hr0
  · intro i
    show idx1 ((colMean m.nvis V).map (fun x => -x)) i = _
    rw [idx1_map_zero (fun x => -x) neg_zero (colMean m.nvis V) i, e4 i]
  · intro j
    show idx1 ((colMean m.nhid (hidden_meanB m μ V)).map (fun x => -x)) j = _
    rw [idx1_map_zero (fun x => -x) neg_zero (colMean m.nhid (hidden_meanB m μ V)) j, e4h j]
  · intro i j
    show idx2 (negM (batch_outer m.nvis m.nhid V (hidden_meanB m μ V))) i j = _
    rw [idx2_negM (batch_outer m.nvis m.nhid V (hidden_meanB m μ V)) i j, e5 i j,
      one_div_mul_eq_div]
  · show (negVec v).length = m.nvis
    simp only [negVec, List.length_map]
    exact hv
  · show (negVec (hidden_mean1 m μ v)).length = m.nhid
    simp only [negVec, hidden_mean1, List.length_map]
    exact length_hidden_field m hm v
  · show (negM (outer v (hidden_mean1 m μ v))).length = m.nvis
    simp only [negM, outer, List.length_map]
    exact hv
  · intro row hrow
    simp only [derivatives_single, negM, outer, List.mem_map] at hrow
    obtain ⟨r0, ⟨x, _, rfl⟩, rfl⟩ := hrow
    simp only [negVec, List.length_map, hidden_mean1]
    exact length_hidden_field m hm v
  · intro i
    show idx1 (v.map (fun x => -x)) i = _
    rw [idx1_map_zero (fun x => -x) neg_zero v i]
  · intro j
    show idx1 ((hidden_mean1 m μ v).map (fun x => -x)) j = _
    rw [idx1_map_zero (fun x => -x) neg_zero (hidden_mean1 m μ v) j]
  · intro i j
    show idx2 (negM (outer v (hidden_mean1 m μ v))) i j = _
    rw [idx2_negM (outer v (hidden_mean1 m μ v)) i j, idx2_outer v (hidden_mean1 m μ v) i j]

/-- Witness for derivatives_spec on the concrete 1 × 1 machine, identity layer
    mean, singleton batch. -/
theorem derivatives_spec_witness :
    wfParams rbm11.nvis rbm11.nhid rbm11 ∧ batchShaped rbm11.nvis [[(1 : ℚ)]] ∧
    [(1 : ℚ)].length = rbm11.nvis ∧
    (derivatives_batch rbm11 (fun x => x) [[(1 : ℚ)]]).visible_bias.length = rbm11.nvis :=
  ⟨by unfold wfParams; decide, by decide, by decide,
    (derivatives_spec rbm11 (fun x => x) [[(1 : ℚ)]] [(1 : ℚ)]
      (by unfold wfParams; decide) (by decide) (by decide)).1⟩
